import Mathlib

/-!
Shallow embedding of the `SocialNetwork` class from
`src/Sm_Predictions/Sm_Prediction.cpp` and proofs about it.

Modelling conventions:
* `std::unordered_map<int, std::unordered_set<int>> graph` is embedded as an
  association list `List (Int × List Int)`; the unordered containers' iteration
  order is unspecified in C++, so we fix insertion order (new map keys and new
  set elements are appended at the back).  Neighbor lists never acquire
  duplicates because insertion is guarded by membership, mirroring set
  semantics.
* `std::unordered_set<int>::insert` is `nsInsert` (append if absent), `erase`
  is `List.erase`.
* BFS loops are written with an explicit fuel argument so that they are
  structurally recursive and computable; a fuel of `(nodesOf g).length + 2`
  is proved sufficient (the C++ loops always terminate).  Fuel exhaustion and
  the potential `graph.at(userId)` exception are both modelled by `none`.
* C++ `int` is modelled by `Int`; the distances computed here stay far below
  `INT_MAX`, and `std::numeric_limits<int>::max()` appears as the literal
  `2147483647`.
-/

/-- The adjacency structure: association list from user id to neighbor list. -/
abbrev Graph := List (Int × List Int)

/-- Embedding of `graph.find(id)`: the neighbor list attached to `id`, if any. -/
def findUser : Graph → Int → Option (List Int)
  | [], _ => none
  | (k, s) :: rest, id => if k = id then some s else findUser rest id

/-- Whether `id` is a key of the adjacency map (`graph.find(id) != graph.end()`). -/
def userExists (g : Graph) (id : Int) : Bool :=
  (findUser g id).isSome

/-- Embedding of `graph[id] = f(graph[id])`: apply `f` to the neighbor list of
`id`, default-constructing an empty entry first when `id` is absent, exactly as
`operator[]` does. -/
def updUser : Graph → Int → (List Int → List Int) → Graph
  | [], id, f => [(id, f [])]
  | (k, s) :: rest, id, f =>
    if k = id then (k, f s) :: rest else (k, s) :: updUser rest id f

/-- Embedding of `std::unordered_set<int>::insert`: add `x` if absent. -/
def nsInsert (x : Int) (s : List Int) : List Int :=
  if x ∈ s then s else s ++ [x]

/-- Embedding of `SocialNetwork::addUser`. -/
def addUser (g : Graph) (id : Int) : Graph :=
  if userExists g id then g else g ++ [(id, [])]

/-- Embedding of `SocialNetwork::addConnection`: ensure both users exist, then
insert each into the other's neighbor set. -/
def addConnection (g : Graph) (a b : Int) : Graph :=
  updUser (updUser (addUser (addUser g a) b) a (nsInsert b)) b (nsInsert a)

/-- Embedding of `SocialNetwork::removeConnection`. -/
def removeConnection (g : Graph) (a b : Int) : Graph :=
  if userExists g a && userExists g b then
    updUser (updUser g a (fun s => s.erase b)) b (fun s => s.erase a)
  else g

/-- Embedding of `SocialNetwork::getFriends`. -/
def getFriends (g : Graph) (id : Int) : List Int :=
  (findUser g id).getD []

/-- The mutating operations of the engine, for stating invariants over
arbitrary operation sequences. -/
inductive NetOp where
  | addU (id : Int)
  | addC (a b : Int)
  | remC (a b : Int)

/-- Apply one mutation to the graph. -/
def applyOp (g : Graph) : NetOp → Graph
  | NetOp.addU id => addUser g id
  | NetOp.addC a b => addConnection g a b
  | NetOp.remC a b => removeConnection g a b

/-- Run a sequence of mutations starting from the empty graph. -/
def runOps (ops : List NetOp) : Graph :=
  ops.foldl applyOp []

/- ### Basic lemmas about the association-list operations -/

theorem findUser_updUser_self (g : Graph) (k : Int) (f : List Int → List Int) :
    findUser (updUser g k f) k = some (f ((findUser g k).getD [])) := by
  induction g with
  | nil => simp [updUser, findUser]
  | cons p rest ih =>
    obtain ⟨k', s⟩ := p
    by_cases h : k' = k
    · subst h; simp [updUser, findUser]
    · simp [updUser, findUser, h, ih]

theorem findUser_updUser_ne (g : Graph) (k x : Int) (f : List Int → List Int)
    (hx : x ≠ k) : findUser (updUser g k f) x = findUser g x := by
  induction g with
  | nil => simp [updUser, findUser, Ne.symm hx]
  | cons p rest ih =>
    obtain ⟨k', s⟩ := p
    by_cases h : k' = k
    · subst h
      simp [updUser, findUser, Ne.symm hx]
    · simp only [updUser, if_neg h]
      by_cases h2 : k' = x
      · subst h2; simp [findUser]
      · simp [findUser, h2, ih]

theorem getFriends_updUser (g : Graph) (k x : Int) (f : List Int → List Int) :
    getFriends (updUser g k f) x =
      if x = k then f (getFriends g k) else getFriends g x := by
  by_cases h : x = k
  · subst h; simp [getFriends, findUser_updUser_self]
  · simp [getFriends, findUser_updUser_ne g k x f h, h]

theorem findUser_append (g1 g2 : Graph) (x : Int) :
    findUser (g1 ++ g2) x = ((findUser g1 x).or (findUser g2 x)) := by
  induction g1 with
  | nil => simp [findUser]
  | cons p rest ih =>
    obtain ⟨k, s⟩ := p
    by_cases h : k = x
    · simp [findUser, h]
    · simp [findUser, h, ih]

theorem addUser_of_exists (g : Graph) (id : Int) (h : userExists g id = true) :
    addUser g id = g := by
  simp [addUser, h]

theorem getFriends_addUser (g : Graph) (id x : Int) :
    getFriends (addUser g id) x = getFriends g x := by
  unfold addUser
  by_cases h : userExists g id
  · simp [h]
  · simp only [h, Bool.false_eq_true, if_false]
    simp only [getFriends, findUser_append]
    cases hf : findUser g x with
    | some s => simp [hf]
    | none =>
      by_cases hx : id = x
      · subst hx
        simp [findUser]
      · simp [findUser, hx]

theorem userExists_addUser_self (g : Graph) (id : Int) :
    userExists (addUser g id) id = true := by
  unfold addUser
  by_cases h : userExists g id
  · simp [h]
  · simp only [h, Bool.false_eq_true, if_false]
    unfold userExists at h ⊢
    rw [findUser_append]
    cases hf : findUser g id with
    | some s => simp [hf] at h
    | none => simp [Option.or, findUser]

theorem userExists_addUser_mono (g : Graph) (id x : Int)
    (h : userExists g x = true) : userExists (addUser g id) x = true := by
  unfold addUser
  by_cases hid : userExists g id
  · simp [hid, h]
  · simp only [hid, Bool.false_eq_true, if_false]
    unfold userExists at h ⊢
    rw [findUser_append]
    cases hf : findUser g x with
    | some s => simp [Option.or]
    | none => simp [userExists, hf] at h

theorem userExists_updUser_self (g : Graph) (k : Int) (f : List Int → List Int) :
    userExists (updUser g k f) k = true := by
  simp [userExists, findUser_updUser_self]

theorem userExists_updUser_mono (g : Graph) (k x : Int) (f : List Int → List Int)
    (h : userExists g x = true) : userExists (updUser g k f) x = true := by
  by_cases hk : x = k
  · subst hk; simp [userExists, findUser_updUser_self]
  · simpa [userExists, findUser_updUser_ne g k x f hk] using h

theorem updUser_noop (g : Graph) (k : Int) (f : List Int → List Int)
    (s : List Int) (hs : findUser g k = some s) (hf : f s = s) :
    updUser g k f = g := by
  induction g with
  | nil => simp [findUser] at hs
  | cons p rest ih =>
    obtain ⟨k', s'⟩ := p
    by_cases h : k' = k
    · subst h
      simp only [findUser, if_true, eq_self_iff_true, Option.some.injEq] at hs
      subst hs
      simp [updUser, hf]
    · simp only [findUser, if_neg h] at hs
      simp [updUser, h, ih hs]

theorem mem_nsInsert (x y : Int) (s : List Int) :
    y ∈ nsInsert x s ↔ y = x ∨ y ∈ s := by
  unfold nsInsert
  by_cases h : x ∈ s
  · simp only [if_pos h]
    constructor
    · exact fun hy => Or.inr hy
    · rintro (rfl | hy)
      · exact h
      · exact hy
  · simp only [if_neg h, List.mem_append, List.mem_singleton]
    tauto

theorem nsInsert_self_mem (x : Int) (s : List Int) : x ∈ nsInsert x s := by
  rw [mem_nsInsert]; exact Or.inl rfl

theorem nsInsert_noop (x : Int) (s : List Int) (h : x ∈ s) : nsInsert x s = s := by
  simp [nsInsert, h]

theorem getFriends_of_find (g : Graph) (x : Int) (s : List Int)
    (h : findUser g x = some s) : getFriends g x = s := by
  simp [getFriends, h]

theorem findUser_mem (g : Graph) (k : Int) (s : List Int)
    (h : findUser g k = some s) : (k, s) ∈ g := by
  induction g with
  | nil => simp [findUser] at h
  | cons p rest ih =>
    obtain ⟨k', s'⟩ := p
    by_cases hk : k' = k
    · subst hk
      simp only [findUser, if_true, eq_self_iff_true, Option.some.injEq] at h
      subst h
      exact List.mem_cons_self _ _
    · simp only [findUser, if_neg hk] at h
      exact List.mem_cons_of_mem _ (ih h)

/- ### Membership characterizations for the mutation operations -/

theorem mem_getFriends_addConnection (g : Graph) (a b u v : Int) :
    u ∈ getFriends (addConnection g a b) v ↔
      (u = a ∧ v = b) ∨ (u = b ∧ v = a) ∨ u ∈ getFriends g v := by
  simp only [addConnection, getFriends_updUser, getFriends_addUser]
  by_cases hvb : v = b <;> by_cases hva : v = a <;> by_cases hba : b = a <;>
    simp_all [mem_nsInsert]

/-- The symmetry invariant: connections are always mutual. -/
def SymGraph (g : Graph) : Prop :=
  ∀ a b : Int, a ∈ getFriends g b ↔ b ∈ getFriends g a

/-- All neighbor lists are duplicate-free (set semantics of `unordered_set`). -/
def NodupGraph (g : Graph) : Prop :=
  ∀ p ∈ g, (p.2 : List Int).Nodup

theorem getFriends_nodup (g : Graph) (x : Int) (h : NodupGraph g) :
    (getFriends g x).Nodup := by
  cases hf : findUser g x with
  | none => simp [getFriends, hf]
  | some s =>
    rw [getFriends_of_find g x s hf]
    exact h (x, s) (findUser_mem g x s hf)

theorem mem_getFriends_removeConnection (g : Graph) (a b u v : Int)
    (hnd : NodupGraph g) :
    u ∈ getFriends (removeConnection g a b) v ↔
      (if userExists g a && userExists g b then
        u ∈ getFriends g v ∧ ¬(u = b ∧ v = a) ∧ ¬(u = a ∧ v = b)
       else u ∈ getFriends g v) := by
  unfold removeConnection
  by_cases hex : userExists g a && userExists g b
  · rw [if_pos hex, if_pos hex]
    simp only [getFriends_updUser]
    have hna : ((getFriends g a).erase b).Nodup :=
      (getFriends_nodup g a hnd).erase b
    have hnv : ∀ y : Int, (getFriends g y).Nodup := fun y => getFriends_nodup g y hnd
    by_cases hvb : v = b <;> by_cases hva : v = a <;> by_cases hba : b = a <;>
      simp_all [List.Nodup.mem_erase_iff] <;> tauto
  · rw [if_neg hex, if_neg hex]

theorem SymGraph_addUser (g : Graph) (id : Int) (h : SymGraph g) :
    SymGraph (addUser g id) := by
  intro a b
  rw [getFriends_addUser, getFriends_addUser]
  exact h a b

theorem SymGraph_addConnection (g : Graph) (a b : Int) (h : SymGraph g) :
    SymGraph (addConnection g a b) := by
  intro u v
  rw [mem_getFriends_addConnection, mem_getFriends_addConnection]
  have huv := h u v
  tauto

theorem SymGraph_removeConnection (g : Graph) (a b : Int) (h : SymGraph g)
    (hnd : NodupGraph g) : SymGraph (removeConnection g a b) := by
  intro u v
  rw [mem_getFriends_removeConnection g a b u v hnd,
    mem_getFriends_removeConnection g a b v u hnd]
  have huv := h u v
  by_cases hex : userExists g a && userExists g b <;> simp [hex] <;> tauto

theorem nodup_nsInsert (x : Int) (s : List Int) (h : s.Nodup) :
    (nsInsert x s).Nodup := by
  unfold nsInsert
  by_cases hm : x ∈ s
  · simpa [hm]
  · simp [hm, h, List.nodup_append, List.disjoint_singleton]

theorem NodupGraph_updUser (g : Graph) (k : Int) (f : List Int → List Int)
    (h : NodupGraph g) (hf : ∀ s : List Int, s.Nodup → (f s).Nodup) :
    NodupGraph (updUser g k f) := by
  induction g with
  | nil =>
    intro p hp
    simp only [updUser, List.mem_singleton] at hp
    subst hp
    exact hf [] (List.nodup_nil)
  | cons q rest ih =>
    obtain ⟨k', s⟩ := q
    intro p hp
    by_cases hk : k' = k
    · subst hk
      simp only [updUser, if_true, eq_self_iff_true, List.mem_cons] at hp
      rcases hp with hp | hp
      · subst hp
        exact hf s (h (k', s) (List.mem_cons_self _ _))
      · exact h p (List.mem_cons_of_mem _ hp)
    · simp only [updUser, if_neg hk, List.mem_cons] at hp
      rcases hp with rfl | hp
      · exact h (k', s) (List.mem_cons_self _ _)
      · exact ih (fun q hq => h q (List.mem_cons_of_mem _ hq)) p hp

theorem NodupGraph_addUser (g : Graph) (id : Int) (h : NodupGraph g) :
    NodupGraph (addUser g id) := by
  unfold addUser
  by_cases he : userExists g id
  · simpa [he]
  · simp only [he, Bool.false_eq_true, if_false]
    intro p hp
    rcases List.mem_append.mp hp with hp | hp
    · exact h p hp
    · simp only [List.mem_singleton] at hp
      subst hp
      exact List.nodup_nil

theorem NodupGraph_addConnection (g : Graph) (a b : Int) (h : NodupGraph g) :
    NodupGraph (addConnection g a b) := by
  unfold addConnection
  apply NodupGraph_updUser
  · apply NodupGraph_updUser
    · exact NodupGraph_addUser _ _ (NodupGraph_addUser _ _ h)
    · exact fun s hs => nodup_nsInsert b s hs
  · exact fun s hs => nodup_nsInsert a s hs

theorem NodupGraph_removeConnection (g : Graph) (a b : Int) (h : NodupGraph g) :
    NodupGraph (removeConnection g a b) := by
  unfold removeConnection
  by_cases hex : userExists g a && userExists g b
  · rw [if_pos hex]
    apply NodupGraph_updUser
    · apply NodupGraph_updUser
      · exact h
      · exact fun s hs => hs.erase b
    · exact fun s hs => hs.erase a
  · rwa [if_neg hex]

theorem runOps_inv (ops : List NetOp) :
    ∀ g : Graph, SymGraph g → NodupGraph g →
      SymGraph (List.foldl applyOp g ops) ∧ NodupGraph (List.foldl applyOp g ops) := by
  induction ops with
  | nil => exact fun g hs hn => ⟨hs, hn⟩
  | cons op rest ih =>
    intro g hs hn
    rw [List.foldl_cons]
    apply ih
    · cases op with
      | addU id => exact SymGraph_addUser g id hs
      | addC a b => exact SymGraph_addConnection g a b hs
      | remC a b => exact SymGraph_removeConnection g a b hs hn
    · cases op with
      | addU id => exact NodupGraph_addUser g id hn
      | addC a b => exact NodupGraph_addConnection g a b hn
      | remC a b => exact NodupGraph_removeConnection g a b hn

/-- C2: starting from the empty graph, after any finite sequence of `addUser`,
`addConnection` and `removeConnection` operations (including removals with
absent endpoints), `b ∈ getFriends a` iff `a ∈ getFriends b`. -/
theorem mutuality_after_any_ops (ops : List NetOp) (a b : Int) :
    b ∈ getFriends (runOps ops) a ↔ a ∈ getFriends (runOps ops) b := by
  have hempty : SymGraph ([] : Graph) := by
    intro u v
    simp [getFriends, findUser]
  have hnd : NodupGraph ([] : Graph) := by
    intro p hp
    simp at hp
  exact (runOps_inv ops [] hempty hnd).1 b a

/- ### Idempotence of addConnection and no-op safety of removeConnection -/

theorem userExists_addConnection_fst (g : Graph) (a b : Int) :
    userExists (addConnection g a b) a = true := by
  unfold addConnection
  apply userExists_updUser_mono
  exact userExists_updUser_self _ _ _

theorem userExists_addConnection_snd (g : Graph) (a b : Int) :
    userExists (addConnection g a b) b = true := by
  unfold addConnection
  exact userExists_updUser_self _ _ _

theorem mem_getFriends_addConnection_fst (g : Graph) (a b : Int) :
    b ∈ getFriends (addConnection g a b) a := by
  rw [mem_getFriends_addConnection]
  tauto

theorem mem_getFriends_addConnection_snd (g : Graph) (a b : Int) :
    a ∈ getFriends (addConnection g a b) b := by
  rw [mem_getFriends_addConnection]
  tauto

/-- C6: `addConnection` is idempotent — performing it twice yields exactly the
same graph state (the same per-user neighbor sets) as performing it once. -/
theorem addConnection_idempotent (g : Graph) (a b : Int) :
    addConnection (addConnection g a b) a b = addConnection g a b := by
  have ea := userExists_addConnection_fst g a b
  have eb := userExists_addConnection_snd g a b
  have hba := mem_getFriends_addConnection_fst g a b
  have hab := mem_getFriends_addConnection_snd g a b
  obtain ⟨sa, hsa⟩ := Option.isSome_iff_exists.mp ea
  obtain ⟨sb, hsb⟩ := Option.isSome_iff_exists.mp eb
  have hba' : b ∈ sa := by
    rwa [getFriends_of_find _ _ _ hsa] at hba
  have hab' : a ∈ sb := by
    rwa [getFriends_of_find _ _ _ hsb] at hab
  conv_lhs => rw [addConnection]
  rw [addUser_of_exists _ _ ea, addUser_of_exists _ _ eb,
    updUser_noop _ _ _ sa hsa (nsInsert_noop b sa hba'),
    updUser_noop _ _ _ sb hsb (nsInsert_noop a sb hab')]

/-- C7: `removeConnection` with a missing endpoint leaves the entire graph
state unchanged (no users created, no neighbor set modified); removal happens
only when both users exist, and unknown users never cause an error (the
function is total). -/
theorem removeConnection_missing_noop (g : Graph) (a b : Int)
    (h : userExists g a = false ∨ userExists g b = false) :
    removeConnection g a b = g := by
  unfold removeConnection
  rcases h with h | h <;> simp [h]

/-- Witness for C7 at a concrete input: removing the connection `(1, 5)` when
user `5` is absent leaves the one-user graph untouched. -/
theorem removeConnection_missing_noop_witness :
    removeConnection [((1 : Int), [(2 : Int)])] 1 5 = [((1 : Int), [(2 : Int)])] :=
  removeConnection_missing_noop [((1 : Int), [(2 : Int)])] 1 5 (Or.inr (by decide))

/- ### Recommendation by common friends -/

/-- Embedding of `potentialFriends[friendOfFriend]++` on the accumulator map
(`unordered_map<int,int>` with default value `0`): increment the first entry
with the given key, or append a fresh entry with count `1`. -/
def bump : List (Int × Int) → Int → List (Int × Int)
  | [], k => [(k, 1)]
  | (k', v) :: rest, k =>
    if k' = k then (k', v + 1) :: rest else (k', v) :: bump rest k

/-- Inner loop of `recommendByCommonFriends`: walk the friends of one direct
friend, skipping the user and direct friends, bumping the counts. -/
def cfInner (u : Int) (uf : List Int) : List Int → List (Int × Int) → List (Int × Int)
  | [], m => m
  | fof :: rest, m =>
    if fof = u ∨ fof ∈ uf then cfInner u uf rest m
    else cfInner u uf rest (bump m fof)

/-- Outer loop of `recommendByCommonFriends`: walk the user's direct friends. -/
def cfOuter (g : Graph) (u : Int) (uf : List Int) : List Int → List (Int × Int) → List (Int × Int)
  | [], m => m
  | f :: rest, m => cfOuter g u uf rest (cfInner u uf (getFriends g f) m)

/-- Sorting by the score field in descending order (`a.second > b.second`
comparator of `std::sort`). -/
def sortByScoreDesc (l : List (Int × Int)) : List (Int × Int) :=
  List.insertionSort (fun p q => q.2 ≤ p.2) l

/-- Sorting by the distance field in ascending order (`a.second < b.second`
comparator of `std::sort`). -/
def sortByDistAsc (l : List (Int × Int)) : List (Int × Int) :=
  List.insertionSort (fun p q => p.2 ≤ q.2) l

/-- Embedding of `SocialNetwork::recommendByCommonFriends`. -/
def recommendByCommonFriends (g : Graph) (u : Int) : List (Int × Int) :=
  sortByScoreDesc (cfOuter g u (getFriends g u) (getFriends g u) [])

theorem mem_bump (m : List (Int × Int)) (k : Int) (q : Int × Int)
    (hq : q ∈ bump m k) :
    (∃ q' ∈ m, q.1 = q'.1 ∧ (q.2 = q'.2 ∨ q.2 = q'.2 + 1)) ∨ q = (k, 1) := by
  induction m with
  | nil =>
    simp only [bump, List.mem_singleton] at hq
    exact Or.inr hq
  | cons p rest ih =>
    obtain ⟨k', v⟩ := p
    by_cases h : k' = k
    · subst h
      simp only [bump, if_true, eq_self_iff_true, List.mem_cons] at hq
      rcases hq with hq | hq
      · exact Or.inl ⟨(k', v), List.mem_cons_self _ _, by simp [hq]⟩
      · exact Or.inl ⟨q, List.mem_cons_of_mem _ hq, rfl, Or.inl rfl⟩
    · simp only [bump, if_neg h, List.mem_cons] at hq
      rcases hq with hq | hq
      · exact Or.inl ⟨(k', v), List.mem_cons_self _ _, by simp [hq]⟩
      · rcases ih hq with ⟨q', hq', h1, h2⟩ | hq'
        · exact Or.inl ⟨q', List.mem_cons_of_mem _ hq', h1, h2⟩
        · exact Or.inr hq'

/-- The invariant carried by the common-friends accumulator: every entry names
a candidate distinct from the user and from the user's direct friends and has
a strictly positive count. -/
def CfInv (u : Int) (uf : List Int) (m : List (Int × Int)) : Prop :=
  ∀ q ∈ m, q.1 ≠ u ∧ q.1 ∉ uf ∧ 0 < q.2

theorem cfInner_inv (u : Int) (uf : List Int) :
    ∀ (ns : List Int) (m : List (Int × Int)), CfInv u uf m →
      CfInv u uf (cfInner u uf ns m) := by
  intro ns
  induction ns with
  | nil => exact fun m hm => hm
  | cons n rest ih =>
    intro m hm
    by_cases hc : n = u ∨ n ∈ uf
    · simp only [cfInner, if_pos hc]
      exact ih m hm
    · simp only [cfInner, if_neg hc]
      apply ih
      intro q hq
      rcases mem_bump m n q hq with ⟨q', hq', h1, h2⟩ | hq'
      · obtain ⟨hu, hf, hpos⟩ := hm q' hq'
        refine ⟨h1 ▸ hu, h1 ▸ hf, ?_⟩
        rcases h2 with h2 | h2 <;> omega
      · push_neg at hc
        subst hq'
        exact ⟨hc.1, hc.2, by norm_num⟩

theorem cfOuter_inv (g : Graph) (u : Int) (uf : List Int) :
    ∀ (fs : List Int) (m : List (Int × Int)), CfInv u uf m →
      CfInv u uf (cfOuter g u uf fs m) := by
  intro fs
  induction fs with
  | nil => exact fun m hm => hm
  | cons f rest ih =>
    intro m hm
    simp only [cfOuter]
    exact ih _ (cfInner_inv u uf (getFriends g f) m hm)

/-- C3: the output of `recommendByCommonFriends(u)` never contains `u` itself,
never contains a direct friend of `u`, and every listed candidate has a
strictly positive common-friends count. -/
theorem recommendByCommonFriends_exclusions (g : Graph) (u : Int) (p : Int × Int)
    (hp : p ∈ recommendByCommonFriends g u) :
    p.1 ≠ u ∧ p.1 ∉ getFriends g u ∧ 0 < p.2 := by
  unfold recommendByCommonFriends sortByScoreDesc at hp
  rw [(List.perm_insertionSort _ _).mem_iff] at hp
  refine cfOuter_inv g u (getFriends g u) (getFriends g u) [] ?_ p hp
  intro q hq
  simp at hq

/-- The §4.3 scenario graph: users `{1,…,6}`, edges
`{1-2, 1-3, 2-4, 3-4, 3-5, 4-5, 4-6}` added in that order. -/
def exGraphC4 : Graph :=
  addConnection (addConnection (addConnection (addConnection (addConnection
    (addConnection (addConnection
      (addUser (addUser (addUser (addUser (addUser (addUser [] 1) 2) 3) 4) 5) 6)
      1 2) 1 3) 2 4) 3 4) 3 5) 4 5) 4 6

/-- Witness for C3 at a concrete input: in the scenario graph, the entry
`(4, 2)` of `recommendByCommonFriends(1)` is neither user 1 nor a direct
friend of 1, and its count is positive. -/
theorem recommendByCommonFriends_exclusions_witness :
    (4 : Int) ≠ 1 ∧ (4 : Int) ∉ getFriends exGraphC4 1 ∧ (0 : Int) < 2 :=
  recommendByCommonFriends_exclusions exGraphC4 1 (4, 2) (by decide)

/-- C4: in the scenario graph, `recommendByCommonFriends(1)` assigns candidate
4 the count 2 and candidate 5 the count 1, and places 4 before 5. -/
theorem recommendByCommonFriends_scenario :
    recommendByCommonFriends exGraphC4 1 = [(4, 2), (5, 1)] := by decide

/- ### Breadth-first search: pairwise distance and distance recommendations -/

/-- All identifiers mentioned anywhere in the adjacency structure (keys and
neighbor entries); BFS can only ever visit these plus the start node, which
bounds the number of loop iterations. -/
def nodesOf (g : Graph) : List Int :=
  g.foldr (fun p acc => p.1 :: (p.2 ++ acc)) []

/-- Fuel that provably outlasts both BFS loops of the source. -/
def fuelFor (g : Graph) : Nat :=
  (nodesOf g).length + 2

/-- Embedding of `distances[neighbor] = v` on an `unordered_map<int,int>`:
overwrite the first entry with the key, or append a fresh one. -/
def setVal : List (Int × Int) → Int → Int → List (Int × Int)
  | [], k, v => [(k, v)]
  | (k', v') :: rest, k, v =>
    if k' = k then (k', v) :: rest else (k', v') :: setVal rest k v

/-- One dequeue's neighbor scan in `getNetworkDistance`: visit each unvisited
neighbor and enqueue it one level further out. -/
def gndStep (g : Graph) (d : Int) : List Int → List Int → List (Int × Int) → (List Int × List (Int × Int))
  | [], vs, acc => (vs, acc)
  | n :: rest, vs, acc =>
    if n ∈ vs then gndStep g d rest vs acc
    else gndStep g d rest (n :: vs) (acc ++ [(n, d + 1)])

/-- The BFS loop of `SocialNetwork::getNetworkDistance`, with explicit fuel;
`none` means the fuel ran out (proved impossible below for `fuelFor`). -/
def gndLoop (g : Graph) (tgt : Int) : Nat → List (Int × Int) → List Int → Option Int
  | 0, _, _ => none
  | _ + 1, [], _ => some 2147483647
  | fuel + 1, (cur, d) :: rest, vs =>
    if cur = tgt then some d
    else
      match gndStep g d (getFriends g cur) vs [] with
      | (vs', nq) => gndLoop g tgt fuel (rest ++ nq) vs'

/-- Embedding of `SocialNetwork::getNetworkDistance`. -/
def getNetworkDistance (g : Graph) (a b : Int) : Option Int :=
  gndLoop g b (fuelFor g) [(a, 0)] [a]

/-- The short-circuited condition
`neighbor != userId && graph.at(userId).count(neighbor) == 0` of
`recommendByNetworkDistance`; `none` models the `std::out_of_range` thrown by
`graph.at` when `userId` is not a key (only reachable when the left conjunct
is true). -/
def recordCheck (g : Graph) (userId n : Int) : Option Bool :=
  if n = userId then some false
  else
    match findUser g userId with
    | none => none
    | some uf => some (decide (n ∉ uf))

/-- One dequeue's neighbor scan in `recommendByNetworkDistance`: visit and
enqueue unvisited neighbors, recording non-friends in the distance map. -/
def rbndStep (g : Graph) (userId d : Int) :
    List Int → List Int → List (Int × Int) → List (Int × Int) →
      Option (List Int × List (Int × Int) × List (Int × Int))
  | [], vs, acc, dist => some (vs, acc, dist)
  | n :: rest, vs, acc, dist =>
    if n ∈ vs then rbndStep g userId d rest vs acc dist
    else
      match recordCheck g userId n with
      | none => none
      | some sr =>
        rbndStep g userId d rest (n :: vs) (acc ++ [(n, d + 1)])
          (if sr then setVal dist n (d + 1) else dist)

/-- The BFS loop of `SocialNetwork::recommendByNetworkDistance`: dequeue,
stop once a node beyond `maxDistance` is dequeued, otherwise expand. -/
def rbndLoop (g : Graph) (userId maxD : Int) :
    Nat → List (Int × Int) → List Int → List (Int × Int) → Option (List (Int × Int))
  | 0, _, _, _ => none
  | _ + 1, [], _, dist => some dist
  | fuel + 1, (cur, d) :: rest, vs, dist =>
    if maxD < d then some dist
    else
      match rbndStep g userId d (getFriends g cur) vs [] dist with
      | none => none
      | some (vs', nq, dist') => rbndLoop g userId maxD fuel (rest ++ nq) vs' dist'

/-- Embedding of `SocialNetwork::recommendByNetworkDistance`. -/
def recommendByNetworkDistance (g : Graph) (userId maxDistance : Int) :
    Option (List (Int × Int)) :=
  (rbndLoop g userId maxDistance (fuelFor g) [(userId, 0)] [userId] []).map sortByDistAsc

/-- The spec's distance-bound test graph: edges `{1-2, 2-3, 3-4}`. -/
def exGraphC1 : Graph :=
  addConnection (addConnection (addConnection [] 1 2) 2 3) 3 4

/-- C1 (failing-input evaluation): on the graph `{1-2, 2-3, 3-4}` with
`maxDistance = 2`, `recommendByNetworkDistance(1, 2)` returns `[(3,2), (4,3)]`
— it records user 4 at distance 3, beyond the bound: a node dequeued at the
`maxDistance` frontier still enqueues and records its neighbors at
`maxDistance + 1` before the `currentDistance > maxDistance` break fires. -/
theorem recommendByNetworkDistance_overshoot :
    recommendByNetworkDistance exGraphC1 1 2 = some [(3, 2), (4, 3)] := by decide

/-- C10: `getNetworkDistance(u, u)` is `0` for every identifier `u`, known or
not: the source node is compared against the target at its own dequeue, before
any edge is traversed. -/
theorem getNetworkDistance_self (g : Graph) (u : Int) :
    getNetworkDistance g u u = some 0 := by
  show gndLoop g u ((nodesOf g).length + 1 + 1) [(u, 0)] [u] = some 0
  simp [gndLoop]

/- ### Totality of the bounded-distance BFS (fuel sufficiency, at-safety) -/

theorem getFriends_not_exists (g : Graph) (u : Int) (h : userExists g u = false) :
    getFriends g u = [] := by
  unfold userExists at h
  cases hf : findUser g u with
  | none => simp [getFriends, hf]
  | some s => simp [hf] at h

theorem mem_nodesOf (g : Graph) (x : Int) :
    x ∈ nodesOf g ↔ ∃ p ∈ g, x = p.1 ∨ x ∈ p.2 := by
  induction g with
  | nil => simp [nodesOf]
  | cons p rest ih =>
    obtain ⟨k, s⟩ := p
    simp only [nodesOf, List.foldr_cons, List.mem_cons, List.mem_append]
    rw [show (List.foldr (fun p acc => p.1 :: (p.2 ++ acc)) [] rest) = nodesOf rest from rfl]
    constructor
    · rintro (hx | hx | hx)
      · exact ⟨(k, s), Or.inl rfl, Or.inl hx⟩
      · exact ⟨(k, s), Or.inl rfl, Or.inr hx⟩
      · obtain ⟨q, hq, hq2⟩ := ih.mp hx
        exact ⟨q, Or.inr hq, hq2⟩
    · rintro ⟨q, hq | hq, hq2⟩
      · subst hq
        rcases hq2 with hx | hx
        · exact Or.inl hx
        · exact Or.inr (Or.inl hx)
      · exact Or.inr (Or.inr (ih.mpr ⟨q, hq, hq2⟩))

theorem getFriends_subset_nodesOf (g : Graph) (y x : Int)
    (hx : x ∈ getFriends g y) : x ∈ nodesOf g := by
  cases hf : findUser g y with
  | none => simp [getFriends, hf] at hx
  | some s =>
    rw [getFriends_of_find g y s hf] at hx
    exact (mem_nodesOf g x).mpr ⟨(y, s), findUser_mem g y s hf, Or.inr hx⟩

/-- The finite universe a BFS started at `a` can ever visit. -/
def allowedF (g : Graph) (a : Int) : Finset Int :=
  (a :: nodesOf g).toFinset

theorem mem_allowedF (g : Graph) (a x : Int) :
    x ∈ allowedF g a ↔ x = a ∨ x ∈ nodesOf g := by
  simp [allowedF]

theorem initial_measure (g : Graph) (a : Int) :
    1 + ((allowedF g a) \ ([a] : List Int).toFinset).card < fuelFor g := by
  have hsub : (allowedF g a) \ ([a] : List Int).toFinset ⊆ (nodesOf g).toFinset := by
    intro x hx
    obtain ⟨hx1, hx2⟩ := Finset.mem_sdiff.mp hx
    rcases (mem_allowedF g a x).mp hx1 with rfl | hx1
    · exact absurd (by simp) hx2
    · simpa using hx1
  have h1 := Finset.card_le_card hsub
  have h2 := (nodesOf g).toFinset_card_le
  unfold fuelFor
  omega

theorem rbndStep_spec (g : Graph) (u d : Int) (hu : userExists g u = true) :
    ∀ (ns vs : List Int) (acc dist : List (Int × Int)),
      ∃ vs' ext dist',
        rbndStep g u d ns vs acc dist = some (vs', acc ++ ext, dist') ∧
        (∀ x ∈ ext.map Prod.fst, x ∈ ns ∧ x ∉ vs) ∧
        (ext.map Prod.fst).Nodup ∧
        (∀ x : Int, x ∈ vs' ↔ x ∈ vs ∨ x ∈ ext.map Prod.fst) := by
  intro ns
  induction ns with
  | nil =>
    intro vs acc dist
    exact ⟨vs, [], dist, by simp [rbndStep], by simp, by simp, fun x => by simp⟩
  | cons n rest ih =>
    intro vs acc dist
    by_cases hv : n ∈ vs
    · obtain ⟨vs', ext, dist', h1, h2, h3, h4⟩ := ih vs acc dist
      refine ⟨vs', ext, dist', ?_, ?_, h3, h4⟩
      · simpa [rbndStep, hv] using h1
      · exact fun x hx => ⟨List.mem_cons_of_mem _ (h2 x hx).1, (h2 x hx).2⟩
    · have hrc : ∃ sr, recordCheck g u n = some sr := by
        unfold recordCheck
        by_cases hn : n = u
        · exact ⟨false, by simp [hn]⟩
        · unfold userExists at hu
          obtain ⟨s, hs⟩ := Option.isSome_iff_exists.mp hu
          exact ⟨decide (n ∉ s), by simp [hn, hs]⟩
      obtain ⟨sr, hsr⟩ := hrc
      obtain ⟨vs', ext, dist', h1, h2, h3, h4⟩ :=
        ih (n :: vs) (acc ++ [(n, d + 1)]) (if sr then setVal dist n (d + 1) else dist)
      refine ⟨vs', (n, d + 1) :: ext, dist', ?_, ?_, ?_, ?_⟩
      · rw [rbndStep, if_neg hv, hsr]
        simpa using h1
      · intro x hx
        rcases List.mem_cons.mp hx with rfl | hx
        · exact ⟨List.mem_cons_self _ _, hv⟩
        · have := h2 x hx
          exact ⟨List.mem_cons_of_mem _ this.1,
            fun hxv => this.2 (List.mem_cons_of_mem _ hxv)⟩
      · refine List.nodup_cons.mpr ⟨?_, h3⟩
        intro hn
        exact (h2 n hn).2 (List.mem_cons_self _ _)
      · intro x
        rw [h4 x]
        simp only [List.mem_cons, List.map_cons]
        tauto

theorem rbndLoop_some (g : Graph) (u maxD : Int) (hu : userExists g u = true) :
    ∀ (fuel : Nat) (qs : List (Int × Int)) (vs : List Int) (dist : List (Int × Int)),
      qs.length + ((allowedF g u) \ vs.toFinset).card < fuel →
      ∃ r, rbndLoop g u maxD fuel qs vs dist = some r := by
  intro fuel
  induction fuel with
  | zero => intro qs vs dist h; omega
  | succ fuel ih =>
    rintro (_ | ⟨⟨cur, d⟩, rest⟩) vs dist h
    · exact ⟨dist, by simp [rbndLoop]⟩
    · by_cases hm : maxD < d
      · exact ⟨dist, by simp [rbndLoop, hm]⟩
      · obtain ⟨vs', ext, dist', h1, h2, h3, h4⟩ :=
          rbndStep_spec g u d hu (getFriends g cur) vs [] dist
        have hextA : (ext.map Prod.fst).toFinset ⊆ (allowedF g u) \ vs.toFinset := by
          intro x hx
          rw [List.mem_toFinset] at hx
          obtain ⟨hx1, hx2⟩ := h2 x hx
          refine Finset.mem_sdiff.mpr ⟨?_, by simpa using hx2⟩
          exact (mem_allowedF g u x).mpr (Or.inr (getFriends_subset_nodesOf g cur x hx1))
        have hvs' : vs'.toFinset = vs.toFinset ∪ (ext.map Prod.fst).toFinset := by
          ext x
          simp only [List.mem_toFinset, Finset.mem_union]
          exact h4 x
        have hsd : (allowedF g u) \ vs'.toFinset =
            ((allowedF g u) \ vs.toFinset) \ (ext.map Prod.fst).toFinset := by
          rw [hvs']
          ext x
          simp only [Finset.mem_sdiff, Finset.mem_union]
          tauto
        have hcard : ((allowedF g u) \ vs'.toFinset).card =
            ((allowedF g u) \ vs.toFinset).card - ext.length := by
          rw [hsd, Finset.card_sdiff hextA, List.toFinset_card_of_nodup h3,
            List.length_map]
        have hle : ext.length ≤ ((allowedF g u) \ vs.toFinset).card := by
          have := Finset.card_le_card hextA
          rwa [List.toFinset_card_of_nodup h3, List.length_map] at this
        have hmeas : (rest ++ ext).length + ((allowedF g u) \ vs'.toFinset).card < fuel := by
          rw [List.length_append, hcard]
          simp only [List.length_cons] at h
          omega
        obtain ⟨r, hr⟩ := ih (rest ++ ext) vs' dist' hmeas
        refine ⟨r, ?_⟩
        rw [rbndLoop, if_neg hm]
        simp only [List.nil_append] at h1
        rw [h1]
        exact hr

theorem recommendByNetworkDistance_unknown (g : Graph) (u maxD : Int)
    (h : userExists g u = false) :
    recommendByNetworkDistance g u maxD = some [] := by
  unfold recommendByNetworkDistance
  show (rbndLoop g u maxD ((nodesOf g).length + 1 + 1) [(u, 0)] [u] []).map sortByDistAsc
      = some []
  by_cases hm : maxD < 0
  · simp [rbndLoop, hm, sortByDistAsc, List.insertionSort]
  · simp [rbndLoop, rbndStep, hm, getFriends_not_exists g u h, sortByDistAsc,
      List.insertionSort]

/-- C9: `recommendByNetworkDistance` is total and never throws — the
`graph.at(userId)` lookup never fires when `userId` is unknown, since BFS then
dequeues only `userId`, whose neighbor list is empty; in that case the result
is the empty sequence. -/
theorem recommendByNetworkDistance_total (g : Graph) (u maxD : Int) :
    (recommendByNetworkDistance g u maxD).isSome = true ∧
      (userExists g u = false → recommendByNetworkDistance g u maxD = some []) := by
  constructor
  · by_cases hu : userExists g u
    · obtain ⟨r, hr⟩ := rbndLoop_some g u maxD hu (fuelFor g) [(u, 0)] [u] []
        (by simpa using initial_measure g u)
      unfold recommendByNetworkDistance
      rw [hr]
      rfl
    · rw [recommendByNetworkDistance_unknown g u maxD (by simpa using hu)]
      rfl
  · exact fun h => recommendByNetworkDistance_unknown g u maxD h

/-- Witness for C9 at a concrete input: for unknown user 7 the result is the
empty list. -/
theorem recommendByNetworkDistance_total_witness :
    recommendByNetworkDistance [((1 : Int), [(2 : Int)])] 7 3 = some [] :=
  (recommendByNetworkDistance_total [((1 : Int), [(2 : Int)])] 7 3).2 (by decide)

/- ### Advanced (weighted) recommendation -/

theorem gndStep_snd_mem (g : Graph) (d : Int) :
    ∀ (ns vs : List Int) (acc : List (Int × Int)) (q : Int × Int),
      q ∈ (gndStep g d ns vs acc).2 → q ∈ acc ∨ q.2 = d + 1 := by
  intro ns
  induction ns with
  | nil => intro vs acc q hq; exact Or.inl hq
  | cons n rest ih =>
    intro vs acc q hq
    by_cases hv : n ∈ vs
    · rw [gndStep, if_pos hv] at hq
      exact ih vs acc q hq
    · rw [gndStep, if_neg hv] at hq
      rcases ih _ _ q hq with hq' | hq'
      · rcases List.mem_append.mp hq' with hq'' | hq''
        · exact Or.inl hq''
        · simp only [List.mem_singleton] at hq''
          subst hq''
          exact Or.inr rfl
      · exact Or.inr hq'

theorem gndLoop_nonneg (g : Graph) (tgt : Int) :
    ∀ (fuel : Nat) (qs : List (Int × Int)) (vs : List Int) (r : Int),
      (∀ p ∈ qs, 0 ≤ p.2) → gndLoop g tgt fuel qs vs = some r → 0 ≤ r := by
  intro fuel
  induction fuel with
  | zero => intro qs vs r hq h; simp [gndLoop] at h
  | succ fuel ih =>
    rintro (_ | ⟨⟨cur, d⟩, rest⟩) vs r hq h
    · rw [gndLoop] at h
      simp only [Option.some.injEq] at h
      omega
    · by_cases ht : cur = tgt
      · rw [gndLoop, if_pos ht] at h
        simp only [Option.some.injEq] at h
        have := hq (cur, d) (List.mem_cons_self _ _)
        omega
      · rw [gndLoop, if_neg ht] at h
        have hd : (0 : Int) ≤ d := hq (cur, d) (List.mem_cons_self _ _)
        refine ih _ _ r ?_ h
        intro p hp
        rcases List.mem_append.mp hp with hp | hp
        · exact hq p (List.mem_cons_of_mem _ hp)
        · rcases gndStep_snd_mem g d (getFriends g cur) vs [] p hp with hp' | hp'
          · simp at hp'
          · omega

theorem getNetworkDistance_nonneg (g : Graph) (a b r : Int)
    (h : getNetworkDistance g a b = some r) : 0 ≤ r := by
  refine gndLoop_nonneg g b (fuelFor g) [(a, 0)] [a] r ?_ h
  intro p hp
  simp only [List.mem_singleton] at hp
  subst hp
  exact le_refl 0

/-- Embedding of `recommendationScores[friendOfFriend] += score` on an
`unordered_map<int, double>` with default value `0.0` (doubles are modelled by
exact rationals; every quantity appearing here is a small exact value, and the
sign facts proved below are unaffected). -/
def bumpQ : List (Int × ℚ) → Int → ℚ → List (Int × ℚ)
  | [], k, q => [(k, q)]
  | (k', v) :: rest, k, q =>
    if k' = k then (k', v + q) :: rest else (k', v) :: bumpQ rest k q

/-- Inner loop of `advancedRecommendation`: per friend-of-friend encounter,
add `commonFriends * 2 + 1.0 / (networkDistance + 1)` to the candidate's
score.  The `getNetworkDistance` call is fuel-bounded, hence the `Option`
(`none` is proved unreachable elsewhere). -/
def advInner (g : Graph) (u : Int) (uf : List Int) :
    List Int → List (Int × ℚ) → Option (List (Int × ℚ))
  | [], m => some m
  | fof :: rest, m =>
    if fof = u ∨ fof ∈ uf then advInner g u uf rest m
    else
      match getNetworkDistance g u fof with
      | none => none
      | some nd =>
        advInner g u uf rest
          (bumpQ m fof
            ((((uf.filter (fun c => decide (c ∈ getFriends g fof))).length : ℚ) * 2)
              + 1 / ((nd : ℚ) + 1)))

/-- Outer loop of `advancedRecommendation`: walk the user's direct friends. -/
def advOuter (g : Graph) (u : Int) (uf : List Int) :
    List Int → List (Int × ℚ) → Option (List (Int × ℚ))
  | [], m => some m
  | f :: rest, m =>
    match advInner g u uf (getFriends g f) m with
    | none => none
    | some m' => advOuter g u uf rest m'

/-- Truncation toward zero, the semantics of `static_cast<int>` on a double. -/
def truncQ (q : ℚ) : Int :=
  if 0 ≤ q then ⌊q⌋ else ⌈q⌉

/-- Embedding of `SocialNetwork::advancedRecommendation`.  The `maxDistance`
parameter is accepted but never used, exactly as in the source. -/
def advancedRecommendation (g : Graph) (u maxDistance : Int) :
    Option (List (Int × Int)) :=
  (advOuter g u (getFriends g u) (getFriends g u) []).map
    (fun m => sortByScoreDesc (m.map (fun p => (p.1, truncQ p.2))))

theorem mem_bumpQ (m : List (Int × ℚ)) (k : Int) (q : ℚ) (p : Int × ℚ)
    (hp : p ∈ bumpQ m k q) :
    (∃ p' ∈ m, p.1 = p'.1 ∧ (p.2 = p'.2 ∨ p.2 = p'.2 + q)) ∨ p = (k, q) := by
  induction m with
  | nil =>
    simp only [bumpQ, List.mem_singleton] at hp
    exact Or.inr hp
  | cons e rest ih =>
    obtain ⟨k', v⟩ := e
    by_cases h : k' = k
    · subst h
      simp only [bumpQ, if_true, eq_self_iff_true, List.mem_cons] at hp
      rcases hp with hp | hp
      · exact Or.inl ⟨(k', v), List.mem_cons_self _ _, by simp [hp]⟩
      · exact Or.inl ⟨p, List.mem_cons_of_mem _ hp, rfl, Or.inl rfl⟩
    · simp only [bumpQ, if_neg h, List.mem_cons] at hp
      rcases hp with hp | hp
      · exact Or.inl ⟨(k', v), List.mem_cons_self _ _, by simp [hp]⟩
      · rcases ih hp with ⟨p', hp', h1, h2⟩ | hp'
        · exact Or.inl ⟨p', List.mem_cons_of_mem _ hp', h1, h2⟩
        · exact Or.inr hp'

theorem advInner_nonneg (g : Graph) (u : Int) (uf : List Int) :
    ∀ (ns : List Int) (m m' : List (Int × ℚ)),
      (∀ p ∈ m, 0 ≤ p.2) → advInner g u uf ns m = some m' →
      ∀ p ∈ m', 0 ≤ p.2 := by
  intro ns
  induction ns with
  | nil =>
    intro m m' hm h
    simp only [advInner, Option.some.injEq] at h
    subst h
    exact hm
  | cons fof rest ih =>
    intro m m' hm h
    by_cases hc : fof = u ∨ fof ∈ uf
    · rw [advInner, if_pos hc] at h
      exact ih m m' hm h
    · rw [advInner, if_neg hc] at h
      cases hnd : getNetworkDistance g u fof with
      | none => rw [hnd] at h; exact absurd h (by simp)
      | some nd =>
        rw [hnd] at h
        refine ih _ m' ?_ h
        have hscore : (0 : ℚ) ≤
            (((uf.filter (fun c => decide (c ∈ getFriends g fof))).length : ℚ) * 2)
              + 1 / ((nd : ℚ) + 1) := by
          have hnd0 : (0 : Int) ≤ nd := getNetworkDistance_nonneg g u fof nd hnd
          have h1 : (0 : ℚ) < (nd : ℚ) + 1 := by
            have : (0 : ℚ) ≤ (nd : ℚ) := by exact_mod_cast hnd0
            linarith
          have h2 : (0 : ℚ) ≤ 1 / ((nd : ℚ) + 1) := le_of_lt (by positivity)
          positivity
        intro p hp
        rcases mem_bumpQ _ _ _ p hp with ⟨p', hp', h1, h2⟩ | hp'
        · have := hm p' hp'
          rcases h2 with h2 | h2 <;> rw [h2] <;> linarith
        · rw [hp']
          exact hscore

theorem advOuter_nonneg (g : Graph) (u : Int) (uf : List Int) :
    ∀ (fs : List Int) (m m' : List (Int × ℚ)),
      (∀ p ∈ m, 0 ≤ p.2) → advOuter g u uf fs m = some m' →
      ∀ p ∈ m', 0 ≤ p.2 := by
  intro fs
  induction fs with
  | nil =>
    intro m m' hm h
    simp only [advOuter, Option.some.injEq] at h
    subst h
    exact hm
  | cons f rest ih =>
    intro m m' hm h
    rw [advOuter] at h
    cases hin : advInner g u uf (getFriends g f) m with
    | none => rw [hin] at h; exact absurd h (by simp)
    | some m'' =>
      rw [hin] at h
      exact ih m'' m' (advInner_nonneg g u uf (getFriends g f) m m'' hm hin) h

/-- C8: every score produced by `advancedRecommendation` is a non-negative
integer — each per-encounter contribution `commonFriends * 2 + 1/(distance+1)`
is non-negative, their sum stays non-negative, and truncation toward zero
preserves this. -/
theorem advancedRecommendation_nonneg (g : Graph) (u maxD : Int)
    (r : List (Int × Int)) (hr : advancedRecommendation g u maxD = some r)
    (p : Int × Int) (hp : p ∈ r) : 0 ≤ p.2 := by
  unfold advancedRecommendation at hr
  cases hadv : advOuter g u (getFriends g u) (getFriends g u) [] with
  | none => rw [hadv] at hr; exact absurd hr (by simp)
  | some m =>
    rw [hadv] at hr
    simp only [Option.map_some', Option.some.injEq] at hr
    subst hr
    unfold sortByScoreDesc at hp
    rw [(List.perm_insertionSort _ _).mem_iff] at hp
    obtain ⟨q, hq, hq2⟩ := List.mem_map.mp hp
    have hq0 : (0 : ℚ) ≤ q.2 :=
      advOuter_nonneg g u (getFriends g u) (getFriends g u) [] m
        (by intro p hp; simp at hp) hadv q hq
    rw [← hq2]
    simp only [truncQ, if_pos hq0]
    exact Int.floor_nonneg.mpr hq0

/-- Witness for C8 at a concrete input: in the scenario graph the first
recommendation for user 1 carries score 8, which is non-negative. -/
theorem advancedRecommendation_nonneg_witness : (0 : Int) ≤ ((4 : Int), (8 : Int)).2 :=
  advancedRecommendation_nonneg exGraphC4 1 5 [(4, 8), (5, 2)]
    (by with_unfolding_all decide) (4, 8) (by decide)

/- ### Reference shortest-path distance (spec side)

The spec describes `getNetworkDistance` as the "standard unweighted-graph BFS
shortest path" with a maximum-integer sentinel when no path exists.  The
following definitions follow the spec's words: `ball g a n` is the set of
nodes reachable from `a` in at most `n` hops along `getFriends` edges, and
`minDist g a x` is the least hop count reaching `x`, `none` when no path
exists.  Balls stabilize after at most `(nodesOf g).length` steps, so the
bounded search below is exhaustive. -/

/-- Insert each element of `l` into `acc` unless already present. -/
def nsInsertAll (acc l : List Int) : List Int :=
  l.foldl (fun s x => nsInsert x s) acc

/-- Nodes within `n` hops of `a` (following `getFriends` edges forward). -/
def ball (g : Graph) (a : Int) : Nat → List Int
  | 0 => [a]
  | n + 1 => nsInsertAll (ball g a n) ((ball g a n).flatMap (getFriends g))

/-- Least `k' ≥ k` with `x ∈ ball g a k'`, searching `fuel` levels. -/
def searchLevel (g : Graph) (a x : Int) : Nat → Nat → Option Nat
  | _, 0 => none
  | k, fuel + 1 =>
    if x ∈ ball g a k then some k else searchLevel g a x (k + 1) fuel

/-- The shortest-path hop count from `a` to `x`, `none` when `x` is
unreachable from `a`. -/
def minDist (g : Graph) (a x : Int) : Option Nat :=
  searchLevel g a x 0 ((nodesOf g).length + 1)

/-- The claim's reading of the return value of `getNetworkDistance`: the hop
count when a path exists, the maximum-integer sentinel otherwise. -/
def distInterp (g : Graph) (a b : Int) : Int :=
  match minDist g a b with
  | some n => (n : Int)
  | none => 2147483647

theorem mem_nsInsertAll (l : List Int) :
    ∀ (acc : List Int) (x : Int), x ∈ nsInsertAll acc l ↔ x ∈ acc ∨ x ∈ l := by
  induction l with
  | nil => intro acc x; simp [nsInsertAll]
  | cons y rest ih =>
    intro acc x
    show x ∈ nsInsertAll (nsInsert y acc) rest ↔ _
    rw [ih (nsInsert y acc) x, mem_nsInsert]
    simp only [List.mem_cons]
    tauto

theorem nodup_nsInsertAll (l : List Int) :
    ∀ acc : List Int, acc.Nodup → (nsInsertAll acc l).Nodup := by
  induction l with
  | nil => intro acc h; exact h
  | cons y rest ih =>
    intro acc h
    exact ih (nsInsert y acc) (nodup_nsInsert y acc h)

theorem nsInsertAll_append_ext (l : List Int) :
    ∀ acc : List Int, ∃ ext : List Int,
      nsInsertAll acc l = acc ++ ext ∧ ∀ x ∈ ext, x ∉ acc := by
  induction l with
  | nil => intro acc; exact ⟨[], by simp [nsInsertAll], by simp⟩
  | cons y rest ih =>
    intro acc
    by_cases hy : y ∈ acc
    · obtain ⟨ext, h1, h2⟩ := ih acc
      refine ⟨ext, ?_, h2⟩
      show nsInsertAll (nsInsert y acc) rest = acc ++ ext
      rwa [nsInsert_noop y acc hy]
    · obtain ⟨ext, h1, h2⟩ := ih (acc ++ [y])
      refine ⟨y :: ext, ?_, ?_⟩
      · show nsInsertAll (nsInsert y acc) rest = acc ++ (y :: ext)
        rw [show nsInsert y acc = acc ++ [y] from by simp [nsInsert, hy], h1,
          List.append_assoc]
        rfl
      · intro x hx
        rcases List.mem_cons.mp hx with rfl | hx
        · exact hy
        · intro hx2
          exact h2 x hx (List.mem_append.mpr (Or.inl hx2))

theorem ball_succ_subset (g : Graph) (a : Int) (n : Nat) :
    ∀ x ∈ ball g a n, x ∈ ball g a (n + 1) := by
  intro x hx
  rw [show ball g a (n + 1) = nsInsertAll (ball g a n) ((ball g a n).flatMap (getFriends g)) from rfl,
    mem_nsInsertAll]
  exact Or.inl hx

theorem ball_subset_of_le (g : Graph) (a : Int) {m n : Nat} (h : m ≤ n) :
    ∀ x ∈ ball g a m, x ∈ ball g a n := by
  obtain ⟨j, rfl⟩ := Nat.exists_eq_add_of_le h
  clear h
  induction j with
  | zero => exact fun x hx => hx
  | succ j ih =>
    exact fun x hx => ball_succ_subset g a (m + j) x (ih x hx)

theorem ball_nodup (g : Graph) (a : Int) (n : Nat) : (ball g a n).Nodup := by
  induction n with
  | zero => simp [ball]
  | succ n ih => exact nodup_nsInsertAll _ _ ih

theorem a_mem_ball (g : Graph) (a : Int) (n : Nat) : a ∈ ball g a n :=
  ball_subset_of_le g a (Nat.zero_le n) a (by simp [ball])

theorem ball_subset_allowed (g : Graph) (a : Int) (n : Nat) :
    ∀ x ∈ ball g a n, x = a ∨ x ∈ nodesOf g := by
  induction n with
  | zero => intro x hx; simp only [ball, List.mem_singleton] at hx; exact Or.inl hx
  | succ n ih =>
    intro x hx
    rw [show ball g a (n + 1) = nsInsertAll (ball g a n) ((ball g a n).flatMap (getFriends g)) from rfl,
      mem_nsInsertAll] at hx
    rcases hx with hx | hx
    · exact ih x hx
    · obtain ⟨y, _, hy2⟩ := List.mem_flatMap.mp hx
      exact Or.inr (getFriends_subset_nodesOf g y x hy2)

theorem ball_closure (g : Graph) (a : Int) (n : Nat) (x y : Int)
    (hy : y ∈ ball g a n) (hx : x ∈ getFriends g y) : x ∈ ball g a (n + 1) := by
  rw [show ball g a (n + 1) = nsInsertAll (ball g a n) ((ball g a n).flatMap (getFriends g)) from rfl,
    mem_nsInsertAll]
  exact Or.inr (List.mem_flatMap.mpr ⟨y, hy, hx⟩)

theorem ball_inversion (g : Graph) (a : Int) (n : Nat) (x : Int)
    (hx : x ∈ ball g a (n + 1)) :
    x ∈ ball g a n ∨ ∃ y ∈ ball g a n, x ∈ getFriends g y := by
  rw [show ball g a (n + 1) = nsInsertAll (ball g a n) ((ball g a n).flatMap (getFriends g)) from rfl,
    mem_nsInsertAll] at hx
  rcases hx with hx | hx
  · exact Or.inl hx
  · exact Or.inr (List.mem_flatMap.mp hx)

theorem ball_length_le (g : Graph) (a : Int) (n : Nat) :
    (ball g a n).length ≤ (nodesOf g).length + 1 := by
  have hnd := ball_nodup g a n
  have hsub : (ball g a n).toFinset ⊆ (a :: nodesOf g).toFinset := by
    intro x hx
    rw [List.mem_toFinset] at hx
    rw [List.mem_toFinset, List.mem_cons]
    exact ball_subset_allowed g a n x hx
  calc (ball g a n).length = (ball g a n).toFinset.card :=
        (List.toFinset_card_of_nodup hnd).symm
    _ ≤ (a :: nodesOf g).toFinset.card := Finset.card_le_card hsub
    _ ≤ (a :: nodesOf g).length := (a :: nodesOf g).toFinset_card_le
    _ = (nodesOf g).length + 1 := by simp

theorem ball_grows (g : Graph) (a : Int) :
    ∀ m : Nat, (∀ k, k < m → ball g a (k + 1) ≠ ball g a k) →
      m + 1 ≤ (ball g a m).length := by
  intro m
  induction m with
  | zero => intro _; simp [ball]
  | succ m ih =>
    intro h
    have h1 := ih (fun k hk => h k (Nat.lt_succ_of_lt hk))
    have hne := h m (Nat.lt_succ_self m)
    obtain ⟨ext, hext, _⟩ :=
      nsInsertAll_append_ext ((ball g a m).flatMap (getFriends g)) (ball g a m)
    have heq : ball g a (m + 1) = ball g a m ++ ext := hext
    cases ext with
    | nil => exact absurd (by simpa using heq) hne
    | cons e ext' =>
      rw [heq, List.length_append]
      simp only [List.length_cons]
      omega

theorem ball_stab (g : Graph) (a : Int) (n : Nat)
    (h : ball g a (n + 1) = ball g a n) :
    ∀ j : Nat, ball g a (n + j) = ball g a n := by
  intro j
  induction j with
  | zero => rfl
  | succ j ih =>
    show ball g a ((n + j) + 1) = ball g a n
    rw [show ball g a ((n + j) + 1)
        = nsInsertAll (ball g a (n + j)) ((ball g a (n + j)).flatMap (getFriends g)) from rfl,
      ih]
    exact h

theorem exists_ball_stab (g : Graph) (a : Int) :
    ∃ k, k ≤ (nodesOf g).length ∧ ball g a (k + 1) = ball g a k := by
  by_contra hc
  push_neg at hc
  have hg := ball_grows g a ((nodesOf g).length + 1)
    (fun k hk => hc k (Nat.lt_succ_iff.mp hk))
  have hb := ball_length_le g a ((nodesOf g).length + 1)
  omega

theorem mem_ball_bounded (g : Graph) (a x : Int) (n : Nat)
    (h : x ∈ ball g a n) : x ∈ ball g a ((nodesOf g).length) := by
  obtain ⟨k, hk, hstab⟩ := exists_ball_stab g a
  by_cases hn : n ≤ (nodesOf g).length
  · exact ball_subset_of_le g a hn x h
  · push_neg at hn
    have h1 : ball g a n = ball g a k := by
      have := ball_stab g a k hstab (n - k)
      rwa [Nat.add_sub_cancel' (by omega : k ≤ n)] at this
    have h2 : ball g a ((nodesOf g).length) = ball g a k := by
      have := ball_stab g a k hstab ((nodesOf g).length - k)
      rwa [Nat.add_sub_cancel' hk] at this
    rw [h2, ← h1]
    exact h

theorem searchLevel_some (g : Graph) (a x : Int) :
    ∀ (fuel k n : Nat), searchLevel g a x k fuel = some n →
      x ∈ ball g a n ∧ k ≤ n ∧ ∀ m, k ≤ m → m < n → x ∉ ball g a m := by
  intro fuel
  induction fuel with
  | zero => intro k n h; simp [searchLevel] at h
  | succ fuel ih =>
    intro k n h
    by_cases hk : x ∈ ball g a k
    · rw [searchLevel, if_pos hk] at h
      simp only [Option.some.injEq] at h
      subst h
      exact ⟨hk, le_refl k, fun m h1 h2 => absurd h1 (by omega)⟩
    · rw [searchLevel, if_neg hk] at h
      obtain ⟨h1, h2, h3⟩ := ih (k + 1) n h
      refine ⟨h1, by omega, ?_⟩
      intro m hm1 hm2
      by_cases hmk : m = k
      · subst hmk; exact hk
      · exact h3 m (by omega) hm2

theorem searchLevel_none (g : Graph) (a x : Int) :
    ∀ (fuel k : Nat), searchLevel g a x k fuel = none →
      ∀ m, k ≤ m → m < k + fuel → x ∉ ball g a m := by
  intro fuel
  induction fuel with
  | zero => intro k h m h1 h2; omega
  | succ fuel ih =>
    intro k h m h1 h2
    by_cases hk : x ∈ ball g a k
    · rw [searchLevel, if_pos hk] at h
      exact absurd h (by simp)
    · rw [searchLevel, if_neg hk] at h
      by_cases hmk : m = k
      · subst hmk; exact hk
      · exact ih (k + 1) h m (by omega) (by omega)

theorem minDist_some (g : Graph) (a x : Int) (n : Nat)
    (h : minDist g a x = some n) :
    x ∈ ball g a n ∧ ∀ m, m < n → x ∉ ball g a m := by
  obtain ⟨h1, _, h3⟩ := searchLevel_some g a x _ 0 n h
  exact ⟨h1, fun m hm => h3 m (Nat.zero_le m) hm⟩

theorem minDist_none (g : Graph) (a x : Int) (h : minDist g a x = none) :
    ∀ n, x ∉ ball g a n := by
  intro n hn
  have hb := mem_ball_bounded g a x n hn
  exact searchLevel_none g a x _ 0 h ((nodesOf g).length) (Nat.zero_le _)
    (by omega) hb

theorem minDist_of_mem (g : Graph) (a x : Int) (n : Nat)
    (h : x ∈ ball g a n) : ∃ m, m ≤ n ∧ minDist g a x = some m := by
  cases hm : minDist g a x with
  | none => exact absurd h (minDist_none g a x hm n)
  | some m =>
    refine ⟨m, ?_, rfl⟩
    by_contra hmn
    push_neg at hmn
    exact (minDist_some g a x m hm).2 n hmn h

theorem minDist_eq_succ (g : Graph) (a x : Int) (n : Nat)
    (h1 : x ∈ ball g a (n + 1)) (h2 : x ∉ ball g a n) :
    minDist g a x = some (n + 1) := by
  obtain ⟨m, hm1, hm2⟩ := minDist_of_mem g a x (n + 1) h1
  have hmem := (minDist_some g a x m hm2).1
  by_cases hmn : m = n + 1
  · rwa [hmn] at hm2
  · exact absurd (ball_subset_of_le g a (by omega : m ≤ n) x hmem) h2

theorem minDist_self (g : Graph) (a : Int) : minDist g a a = some 0 := by
  unfold minDist
  rw [searchLevel]
  simp [ball]

/- ### BFS loop invariant for getNetworkDistance -/

/-- The identifiers carried by a queue. -/
def qNodes (qs : List (Int × Int)) : List Int :=
  qs.map Prod.fst

theorem mem_qNodes (qs : List (Int × Int)) (x : Int) :
    x ∈ qNodes qs ↔ ∃ p ∈ qs, p.1 = x :=
  List.mem_map

theorem qNodes_append (l1 l2 : List (Int × Int)) :
    qNodes (l1 ++ l2) = qNodes l1 ++ qNodes l2 :=
  List.map_append _ _ _

theorem gndStep_spec (g : Graph) (d : Int) :
    ∀ (ns vs : List Int) (acc : List (Int × Int)),
      ∃ vs' ext,
        gndStep g d ns vs acc = (vs', acc ++ ext) ∧
        (∀ p ∈ ext, p.2 = d + 1 ∧ p.1 ∈ ns ∧ p.1 ∉ vs) ∧
        (qNodes ext).Nodup ∧
        (∀ x : Int, x ∈ vs' ↔ x ∈ vs ∨ x ∈ qNodes ext) ∧
        (∀ x ∈ ns, x ∈ vs') := by
  intro ns
  induction ns with
  | nil =>
    intro vs acc
    exact ⟨vs, [], by simp [gndStep], by simp, by simp [qNodes],
      fun x => by simp [qNodes], by simp⟩
  | cons n rest ih =>
    intro vs acc
    by_cases hv : n ∈ vs
    · obtain ⟨vs', ext, h1, h2, h3, h4, h5⟩ := ih vs acc
      refine ⟨vs', ext, by simpa [gndStep, hv] using h1, ?_, h3, h4, ?_⟩
      · intro p hp
        obtain ⟨hp1, hp2, hp3⟩ := h2 p hp
        exact ⟨hp1, List.mem_cons_of_mem _ hp2, hp3⟩
      · intro x hx
        rcases List.mem_cons.mp hx with rfl | hx
        · exact (h4 x).mpr (Or.inl hv)
        · exact h5 x hx
    · obtain ⟨vs', ext, h1, h2, h3, h4, h5⟩ := ih (n :: vs) (acc ++ [(n, d + 1)])
      refine ⟨vs', (n, d + 1) :: ext, ?_, ?_, ?_, ?_, ?_⟩
      · rw [gndStep, if_neg hv]
        simpa using h1
      · intro p hp
        rcases List.mem_cons.mp hp with rfl | hp
        · exact ⟨rfl, List.mem_cons_self _ _, hv⟩
        · obtain ⟨hp1, hp2, hp3⟩ := h2 p hp
          exact ⟨hp1, List.mem_cons_of_mem _ hp2,
            fun hc => hp3 (List.mem_cons_of_mem _ hc)⟩
      · rw [show qNodes ((n, d + 1) :: ext) = n :: qNodes ext from rfl]
        refine List.nodup_cons.mpr ⟨?_, h3⟩
        intro hn
        obtain ⟨p, hp, hpn⟩ := (mem_qNodes ext n).mp hn
        exact (h2 p hp).2.2 (hpn ▸ List.mem_cons_self n vs)
      · intro x
        rw [h4 x]
        rw [show qNodes ((n, d + 1) :: ext) = n :: qNodes ext from rfl]
        simp only [List.mem_cons]
        tauto
      · intro x hx
        rcases List.mem_cons.mp hx with rfl | hx
        · exact (h4 x).mpr (Or.inl (List.mem_cons_self _ _))
        · exact h5 x hx

/-- The BFS invariant, with the current frontier level `D` and the queue split
into the `D`-level segment `q1` followed by the `(D+1)`-level segment `q2`:
queue entries carry their true shortest-path distance, the visited set is
exactly the `D`-ball plus the freshly discovered `(D+1)`-level nodes, queue
identifiers are distinct, fully processed nodes have all neighbors visited,
and the target has not been dequeued yet. -/
def GInvAt (g : Graph) (a tgt : Int) (qs : List (Int × Int)) (vs : List Int)
    (D : Nat) (q1 q2 : List (Int × Int)) : Prop :=
  qs = q1 ++ q2 ∧
  (∀ p ∈ q1, p.2 = (D : Int) ∧ minDist g a p.1 = some D) ∧
  (∀ p ∈ q2, p.2 = (D : Int) + 1 ∧ minDist g a p.1 = some (D + 1)) ∧
  (∀ x : Int, x ∈ vs ↔ (x ∈ ball g a D ∨ x ∈ qNodes q2)) ∧
  (qNodes qs).Nodup ∧
  (∀ x ∈ vs, x ∉ qNodes qs → ∀ y ∈ getFriends g x, y ∈ vs) ∧
  (tgt ∈ vs → tgt ∈ qNodes qs)

/-- The BFS invariant with the level data hidden. -/
def GInv (g : Graph) (a tgt : Int) (qs : List (Int × Int)) (vs : List Int) : Prop :=
  ∃ D q1 q2, GInvAt g a tgt qs vs D q1 q2

theorem GInvAt_shift (g : Graph) (a tgt : Int) (qs : List (Int × Int))
    (vs : List Int) (D : Nat) (q2 : List (Int × Int))
    (h : GInvAt g a tgt qs vs D [] q2) :
    GInvAt g a tgt qs vs (D + 1) q2 [] := by
  obtain ⟨h1, h2, h3, h4, h5, h6, h7⟩ := h
  refine ⟨by simpa using h1, ?_, by simp, ?_, h5, h6, h7⟩
  · intro p hp
    obtain ⟨hp1, hp2⟩ := h3 p hp
    exact ⟨by push_cast; exact hp1, hp2⟩
  · intro x
    constructor
    · intro hxv
      rcases (h4 x).mp hxv with hx | hx
      · exact Or.inl (ball_succ_subset g a D x hx)
      · obtain ⟨p, hp, hpx⟩ := (mem_qNodes q2 x).mp hx
        exact Or.inl (hpx ▸ (minDist_some g a p.1 (D + 1) (h3 p hp).2).1)
    · rintro (hx | hx)
      · rcases ball_inversion g a D x hx with hx' | ⟨y, hy, hxy⟩
        · exact (h4 x).mpr (Or.inl hx')
        · have hyv : y ∈ vs := (h4 y).mpr (Or.inl hy)
          have hynq : y ∉ qNodes qs := by
            rw [h1]
            simp only [List.nil_append]
            intro hyq
            obtain ⟨p, hp, hpy⟩ := (mem_qNodes q2 y).mp hyq
            have hmd := (h3 p hp).2
            rw [hpy] at hmd
            obtain ⟨m, hm1, hm2⟩ := minDist_of_mem g a y D hy
            rw [hm2] at hmd
            simp only [Option.some.injEq] at hmd
            omega
          exact h6 y hyv hynq x hxy
      · simp [qNodes] at hx

theorem GInvAt_exhaust (g : Graph) (a tgt : Int) (vs : List Int) (D : Nat)
    (q1 q2 : List (Int × Int)) (h : GInvAt g a tgt [] vs D q1 q2) :
    minDist g a tgt = none := by
  obtain ⟨h1, h2, h3, h4, h5, h6, h7⟩ := h
  obtain ⟨hq1, hq2⟩ := List.append_eq_nil.mp h1.symm
  subst hq1
  subst hq2
  have hvs : ∀ x : Int, x ∈ vs ↔ x ∈ ball g a D := by
    intro x
    rw [h4 x]
    simp [qNodes]
  have hsucc : ∀ x ∈ ball g a (D + 1), x ∈ ball g a D := by
    intro x hx
    rcases ball_inversion g a D x hx with hx' | ⟨y, hy, hxy⟩
    · exact hx'
    · have hyv := (hvs y).mpr hy
      have hxv : x ∈ vs := h6 y hyv (by simp [qNodes]) x hxy
      exact (hvs x).mp hxv
  have heq : ball g a (D + 1) = ball g a D := by
    obtain ⟨ext, hext, hdis⟩ :=
      nsInsertAll_append_ext ((ball g a D).flatMap (getFriends g)) (ball g a D)
    have heq1 : ball g a (D + 1) = ball g a D ++ ext := hext
    cases ext with
    | nil => simpa using heq1
    | cons e ext' =>
      exfalso
      have he : e ∈ ball g a (D + 1) := by
        rw [heq1]
        simp
      exact hdis e (by simp) (hsucc e he)
  have htv : tgt ∉ vs := fun htv => by simpa [qNodes] using h7 htv
  have htb : ∀ n, tgt ∉ ball g a n := by
    intro n hn
    by_cases hD : n ≤ D
    · exact htv ((hvs tgt).mpr (ball_subset_of_le g a hD tgt hn))
    · push_neg at hD
      have hstab := ball_stab g a D heq (n - D)
      rw [Nat.add_sub_cancel' (le_of_lt hD)] at hstab
      rw [hstab] at hn
      exact htv ((hvs tgt).mpr hn)
  cases hm : minDist g a tgt with
  | none => rfl
  | some n => exact absurd (minDist_some g a tgt n hm).1 (htb n)

theorem GInv_cons (g : Graph) (a tgt cur d : Int)
    (rest : List (Int × Int)) (vs : List Int)
    (h : GInv g a tgt ((cur, d) :: rest) vs) :
    ∃ D q1t q2, rest = q1t ++ q2 ∧
      GInvAt g a tgt ((cur, d) :: rest) vs D ((cur, d) :: q1t) q2 := by
  obtain ⟨D, q1, q2, hAt⟩ := h
  cases q1 with
  | nil =>
    have hq2 : q2 = (cur, d) :: rest := by
      have := hAt.1
      simpa using this.symm
    subst hq2
    exact ⟨D + 1, rest, [], by simp, GInvAt_shift g a tgt _ vs D _ hAt⟩
  | cons p q1t =>
    have hpe : (cur, d) = p ∧ rest = q1t ++ q2 := by
      have := hAt.1
      simpa [List.cons_append, List.cons.injEq] using this
    obtain ⟨hpe1, hpe2⟩ := hpe
    subst hpe1
    exact ⟨D, q1t, q2, hpe2, hAt⟩

theorem GInvAt_step (g : Graph) (a tgt cur d : Int)
    (rest q1t q2 ext : List (Int × Int)) (vs vs' : List Int) (D : Nat)
    (hAt : GInvAt g a tgt ((cur, d) :: rest) vs D ((cur, d) :: q1t) q2)
    (hrest : rest = q1t ++ q2)
    (hne : cur ≠ tgt)
    (hext : ∀ p ∈ ext, p.2 = d + 1 ∧ p.1 ∈ getFriends g cur ∧ p.1 ∉ vs)
    (hnd : (qNodes ext).Nodup)
    (hvs' : ∀ x : Int, x ∈ vs' ↔ x ∈ vs ∨ x ∈ qNodes ext)
    (hns : ∀ x ∈ getFriends g cur, x ∈ vs') :
    GInvAt g a tgt (rest ++ ext) vs' D q1t (q2 ++ ext) := by
  obtain ⟨h1, h2, h3, h4, h5, h6, h7⟩ := hAt
  have hdD : d = (D : Int) ∧ minDist g a cur = some D :=
    h2 (cur, d) (List.mem_cons_self _ _)
  have hcurb : cur ∈ ball g a D := (minDist_some g a cur D hdD.2).1
  have hballvs : ∀ x ∈ ball g a D, x ∈ vs := fun x hx => (h4 x).mpr (Or.inl hx)
  have hq2vs : ∀ x ∈ qNodes q2, x ∈ vs := fun x hx => (h4 x).mpr (Or.inr hx)
  have hextD : ∀ p ∈ ext, p.2 = (D : Int) + 1 ∧ minDist g a p.1 = some (D + 1) := by
    intro p hp
    obtain ⟨hp1, hp2, hp3⟩ := hext p hp
    have hball1 : p.1 ∈ ball g a (D + 1) := ball_closure g a D p.1 cur hcurb hp2
    have hnb : p.1 ∉ ball g a D := fun hb => hp3 (hballvs _ hb)
    exact ⟨by rw [hp1, hdD.1], minDist_eq_succ g a p.1 D hball1 hnb⟩
  have hq1vs : ∀ x ∈ qNodes ((cur, d) :: q1t), x ∈ vs := by
    intro x hx
    obtain ⟨p, hp, hpx⟩ := (mem_qNodes _ x).mp hx
    exact hpx ▸ hballvs p.1 (minDist_some g a p.1 D (h2 p hp).2).1
  have hrestvs : ∀ x ∈ qNodes rest, x ∈ vs := by
    intro x hx
    rw [hrest, qNodes_append, List.mem_append] at hx
    rcases hx with hx | hx
    · obtain ⟨p, hp, hpx⟩ := (mem_qNodes _ x).mp hx
      exact hpx ▸ hballvs p.1
        (minDist_some g a p.1 D (h2 p (List.mem_cons_of_mem _ hp)).2).1
    · exact hq2vs x hx
  refine ⟨?_, ?_, ?_, ?_, ?_, ?_, ?_⟩
  · rw [hrest, List.append_assoc]
  · intro p hp
    exact h2 p (List.mem_cons_of_mem _ hp)
  · intro p hp
    rcases List.mem_append.mp hp with hp | hp
    · exact h3 p hp
    · exact hextD p hp
  · intro x
    rw [hvs' x, h4 x, qNodes_append]
    simp only [List.mem_append]
    tauto
  · rw [qNodes_append]
    have h5' : (cur :: qNodes rest).Nodup := h5
    have hrestnd : (qNodes rest).Nodup := (List.nodup_cons.mp h5').2
    rw [List.nodup_append]
    refine ⟨hrestnd, hnd, ?_⟩
    intro x hx hx2
    obtain ⟨p, hp, hpx⟩ := (mem_qNodes ext x).mp hx2
    exact (hext p hp).2.2 (hpx ▸ hrestvs x hx)
  · intro x hxv' hxnq y hy
    rcases (hvs' x).mp hxv' with hxv | hxe
    · by_cases hxc : x = cur
      · subst hxc
        exact hns y hy
      · have hxnq0 : x ∉ qNodes ((cur, d) :: rest) := by
          rw [show qNodes ((cur, d) :: rest) = cur :: qNodes rest from rfl]
          intro hmem
          rcases List.mem_cons.mp hmem with h | h
          · exact hxc h
          · exact hxnq (by rw [qNodes_append]; exact List.mem_append.mpr (Or.inl h))
        exact (hvs' y).mpr (Or.inl (h6 x hxv hxnq0 y hy))
    · exact absurd (by rw [qNodes_append]; exact List.mem_append.mpr (Or.inr hxe)) hxnq
  · intro ht
    rcases (hvs' tgt).mp ht with htv | hte
    · have hn := h7 htv
      rw [show qNodes ((cur, d) :: rest) = cur :: qNodes rest from rfl] at hn
      rcases List.mem_cons.mp hn with h | h
      · exact absurd h.symm hne
      · rw [qNodes_append]
        exact List.mem_append.mpr (Or.inl h)
    · rw [qNodes_append]
      exact List.mem_append.mpr (Or.inr hte)

theorem measure_decrease (g : Graph) (a cur : Int) (vs vs' : List Int)
    (ext rest : List (Int × Int)) (fuel : Nat)
    (hext : ∀ p ∈ ext, p.1 ∈ getFriends g cur ∧ p.1 ∉ vs)
    (hnd : (qNodes ext).Nodup)
    (hvs' : ∀ x : Int, x ∈ vs' ↔ x ∈ vs ∨ x ∈ qNodes ext)
    (h : rest.length + 1 + ((allowedF g a) \ vs.toFinset).card < fuel + 1) :
    (rest ++ ext).length + ((allowedF g a) \ vs'.toFinset).card < fuel := by
  have hextA : (qNodes ext).toFinset ⊆ (allowedF g a) \ vs.toFinset := by
    intro x hx
    rw [List.mem_toFinset] at hx
    obtain ⟨p, hp, hpx⟩ := (mem_qNodes ext x).mp hx
    obtain ⟨hp1, hp2⟩ := hext p hp
    refine Finset.mem_sdiff.mpr ⟨?_, ?_⟩
    · exact (mem_allowedF g a x).mpr
        (Or.inr (getFriends_subset_nodesOf g cur x (hpx ▸ hp1)))
    · rw [List.mem_toFinset]
      exact hpx ▸ hp2
  have hvsf : vs'.toFinset = vs.toFinset ∪ (qNodes ext).toFinset := by
    ext x
    simp only [List.mem_toFinset, Finset.mem_union]
    exact hvs' x
  have hsd : (allowedF g a) \ vs'.toFinset =
      ((allowedF g a) \ vs.toFinset) \ (qNodes ext).toFinset := by
    rw [hvsf]
    ext x
    simp only [Finset.mem_sdiff, Finset.mem_union]
    tauto
  have hcard : ((allowedF g a) \ vs'.toFinset).card =
      ((allowedF g a) \ vs.toFinset).card - ext.length := by
    rw [hsd, Finset.card_sdiff hextA, List.toFinset_card_of_nodup hnd]
    rw [show (qNodes ext).length = ext.length from List.length_map _ _]
  have hle : ext.length ≤ ((allowedF g a) \ vs.toFinset).card := by
    have hc := Finset.card_le_card hextA
    rwa [List.toFinset_card_of_nodup hnd,
      show (qNodes ext).length = ext.length from List.length_map _ _] at hc
  rw [List.length_append, hcard]
  omega

theorem gndLoop_correct (g : Graph) (a tgt : Int) :
    ∀ (fuel : Nat) (qs : List (Int × Int)) (vs : List Int),
      GInv g a tgt qs vs →
      qs.length + ((allowedF g a) \ vs.toFinset).card < fuel →
      gndLoop g tgt fuel qs vs = some (distInterp g a tgt) := by
  intro fuel
  induction fuel with
  | zero => intro qs vs _ h; omega
  | succ fuel ih =>
    rintro (_ | ⟨⟨cur, d⟩, rest⟩) vs hInv hm
    · rw [gndLoop]
      obtain ⟨D, q1, q2, hAt⟩ := hInv
      rw [distInterp, GInvAt_exhaust g a tgt vs D q1 q2 hAt]
    · obtain ⟨D, q1t, q2, hrest, hAt⟩ := GInv_cons g a tgt cur d rest vs hInv
      by_cases ht : cur = tgt
      · rw [gndLoop, if_pos ht]
        have hd1 : d = (D : Int) := (hAt.2.1 (cur, d) (List.mem_cons_self _ _)).1
        have hd2 : minDist g a cur = some D := (hAt.2.1 (cur, d) (List.mem_cons_self _ _)).2
        rw [distInterp, ← ht, hd2, hd1]
      · rw [gndLoop, if_neg ht]
        obtain ⟨vs', ext, heq, hext, hnd, hvs', hns⟩ :=
          gndStep_spec g d (getFriends g cur) vs []
        rw [heq]
        show gndLoop g tgt fuel (rest ++ ([] ++ ext)) vs' = some (distInterp g a tgt)
        rw [List.nil_append]
        apply ih
        · exact ⟨D, q1t, q2 ++ ext,
            GInvAt_step g a tgt cur d rest q1t q2 ext vs vs' D hAt hrest ht hext hnd
              hvs' hns⟩
        · refine measure_decrease g a cur vs vs' ext rest fuel
            (fun p hp => ⟨(hext p hp).2.1, (hext p hp).2.2⟩) hnd hvs' ?_
          simpa using hm

theorem getNetworkDistance_correct (g : Graph) (a b : Int) :
    getNetworkDistance g a b = some (distInterp g a b) := by
  unfold getNetworkDistance
  apply gndLoop_correct g a b (fuelFor g) [(a, 0)] [a]
  · refine ⟨0, [(a, 0)], [], by simp, ?_, by simp, ?_, by simp [qNodes], ?_, ?_⟩
    · intro p hp
      simp only [List.mem_singleton] at hp
      subst hp
      exact ⟨by simp, minDist_self g a⟩
    · intro x
      simp [ball, qNodes]
    · intro x hx hnx
      simp only [List.mem_singleton] at hx
      simp [qNodes, hx] at hnx
    · intro ht
      simpa [qNodes] using ht
  · simpa using initial_measure g a

/-- The state invariant that every graph reachable through the engine's API
satisfies: every listed neighbor is itself a key of the map. -/
def ClosedGraph (g : Graph) : Prop :=
  ∀ p ∈ g, ∀ x ∈ (p.2 : List Int), userExists g x = true

theorem ball_unknown_source (g : Graph) (a : Int) (h : userExists g a = false) :
    ∀ n, ball g a n = [a] := by
  intro n
  induction n with
  | zero => rfl
  | succ n ih =>
    show nsInsertAll (ball g a n) ((ball g a n).flatMap (getFriends g)) = [a]
    rw [ih]
    rw [show ([a] : List Int).flatMap (getFriends g) = getFriends g a ++ [] from rfl,
      List.append_nil, getFriends_not_exists g a h]
    rfl

theorem ball_mem_userExists (g : Graph) (a : Int) (hc : ClosedGraph g) :
    ∀ n, ∀ x ∈ ball g a n, x = a ∨ userExists g x = true := by
  intro n
  induction n with
  | zero =>
    intro x hx
    simp only [ball, List.mem_singleton] at hx
    exact Or.inl hx
  | succ n ih =>
    intro x hx
    rcases ball_inversion g a n x hx with hx' | ⟨y, hy, hxy⟩
    · exact ih x hx'
    · right
      cases hf : findUser g y with
      | none =>
        rw [getFriends, hf] at hxy
        simp at hxy
      | some s =>
        rw [getFriends_of_find g y s hf] at hxy
        exact hc (y, s) (findUser_mem g y s hf) x hxy

theorem minDist_unknown_fst (g : Graph) (a b : Int)
    (h : userExists g a = false) (hab : a ≠ b) : minDist g a b = none := by
  cases hm : minDist g a b with
  | none => rfl
  | some n =>
    exfalso
    have hb := (minDist_some g a b n hm).1
    rw [ball_unknown_source g a h n] at hb
    simp only [List.mem_singleton] at hb
    exact hab hb.symm

theorem minDist_unknown_snd (g : Graph) (a b : Int) (hc : ClosedGraph g)
    (h : userExists g b = false) (hab : a ≠ b) : minDist g a b = none := by
  cases hm : minDist g a b with
  | none => rfl
  | some n =>
    exfalso
    have hb := (minDist_some g a b n hm).1
    rcases ball_mem_userExists g a hc n b hb with hb' | hb'
    · exact hab hb'.symm
    · rw [h] at hb'
      exact Bool.false_ne_true hb'

/-- C5 (amended): `getNetworkDistance(a, b)` returns the `INT_MAX` sentinel
exactly when no path from `a` to `b` exists, and otherwise the shortest-path
hop count; in particular it returns the sentinel when `a` is unknown and
`a ≠ b`, and when `b` is unknown and `a ≠ b` (for the engine-reachable graphs,
whose neighbor entries are all users).  The amendment restricts the claim's
unknown-user clause to `a ≠ b`: for `a = b` the function returns `0` even when
`a` is unknown (see the counterexample). -/
theorem getNetworkDistance_meets_spec (g : Graph) (a b : Int) :
    getNetworkDistance g a b = some (distInterp g a b) ∧
    (minDist g a b = none → getNetworkDistance g a b = some 2147483647) ∧
    (∀ n : Nat, minDist g a b = some n → getNetworkDistance g a b = some (n : Int)) ∧
    (userExists g a = false → a ≠ b → getNetworkDistance g a b = some 2147483647) ∧
    (ClosedGraph g → userExists g b = false → a ≠ b →
      getNetworkDistance g a b = some 2147483647) := by
  have hmain := getNetworkDistance_correct g a b
  refine ⟨hmain, ?_, ?_, ?_, ?_⟩
  · intro h
    rw [hmain, distInterp, h]
  · intro n h
    rw [hmain, distInterp, h]
  · intro h hab
    rw [hmain, distInterp, minDist_unknown_fst g a b h hab]
  · intro hc h hab
    rw [hmain, distInterp, minDist_unknown_snd g a b hc h hab]

/-- Witness for C5 at a concrete input: in the empty graph (user 0 unknown),
`getNetworkDistance(0, 1)` is the sentinel. -/
theorem getNetworkDistance_meets_spec_witness :
    getNetworkDistance [] 0 1 = some 2147483647 :=
  (getNetworkDistance_meets_spec [] 0 1).2.2.2.1 rfl (by decide)

/-- Counterexample to C5 as stated: for the unknown identifier 5 in the empty
graph, `getNetworkDistance(5, 5)` returns `0`, not the maximum-integer
sentinel, although both arguments are unknown to the graph. -/
theorem getNetworkDistance_unknown_self_counterexample :
    getNetworkDistance [] 5 5 = some 0 ∧ userExists [] 5 = false ∧
      (0 : Int) ≠ 2147483647 := by decide
